import Mathlib

/-!
Verification of the ResGenWest Thessaloniki optimizer core.

Shallow embedding conventions:
- Python floats are modelled as rationals (`ℚ`), Python ints as `ℤ`/`ℕ`.
- Strings keep their Python normalizations: `str.lower` and `str.strip`
  are modelled for the ASCII data the program handles.
- The external CP-SAT collaborator is modelled by its interface contract
  (spec section 1, "OUT OF SCOPE", and section 4.3): given the per-block
  boolean choice model it returns an optimal assignment or reports
  infeasibility.  Selections are enumerated explicitly and the optimum
  is taken with `List.argmax` / `List.argmin`.
-/

/-- Model of Python `str.lower` for ASCII strings (used by
`coverage_for_type` and the roof test in `compute_block_option_metrics`). -/
def pyLower (s : String) : String := ⟨s.data.map Char.toLower⟩

/-- Drop leading whitespace of a character list. -/
def stripAux (l : List Char) : List Char := l.dropWhile Char.isWhitespace

/-- Model of Python `str.strip`: whitespace removed from both ends. -/
def pyStrip (s : String) : String := ⟨((stripAux s.data).reverse |> stripAux).reverse⟩

/-- Parameter bundle of `python/optimizer/model.py` (dataclass `Params`),
fields in source order. -/
structure Params where
  cost_res : ℚ
  co2_res : ℚ
  cost_nbs : ℚ
  co2_nbs : ℚ
  pct_covered_by_NBS_RES : ℚ
  pct_covered_roof : ℚ
  pct_covered_ground : ℚ
  tree_cover_area : ℚ
  res_cell_area : ℚ
  tree_weight : ℚ
  max_roof_load : ℚ
  res_cost_floor : ℚ
  nbs_cost_floor : ℚ
  res_discount_units : ℚ
  nbs_discount_units : ℚ

/-- Default parameter values of the `Params` dataclass. -/
def defaultParams : Params :=
  ⟨240, 71, 600, 25, 50, -1, -1, 5, 5, 400, 100, 1, 1, 10 ^ 30, 10 ^ 30⟩

/-- Model of `coverage_for_type` from `model.py` lines 33-40: coverage fraction in
[0,1] for the given cell type, per-type overrides active when `≥ 0`. -/
def coverage_for_type (p : Params) (cell_type : String) : ℚ :=
  let ct := pyLower (pyStrip cell_type)
  if ct = "roof" ∧ p.pct_covered_roof ≥ 0 then
    max 0 (min 100 p.pct_covered_roof) / 100
  else if ct = "ground" ∧ p.pct_covered_ground ≥ 0 then
    max 0 (min 100 p.pct_covered_ground) / 100
  else max 0 (min 100 p.pct_covered_by_NBS_RES) / 100

/-- The epsilon guard `1e-9` used in `model.py` line 53 and `cli.py`. -/
def eps : ℚ := 1 / 1000000000

/-- RES area of `model.py` line 51: `max(0, area * cov * max(0, res_pct))`. -/
def res_area_of (area_m2 res_pct : ℚ) (cell_type : String) (p : Params) : ℚ :=
  max 0 (area_m2 * coverage_for_type p cell_type * max 0 res_pct)

/-- Effective NBS area of `model.py` line 52. -/
def eff_nbs_area_of (area_m2 nbs_pct : ℚ) (cell_type : String) (p : Params) : ℚ :=
  max 0 (area_m2 * coverage_for_type p cell_type * max 0 nbs_pct)

/-- Uncapped tree count of `model.py` line 53:
`int(eff_nbs_area // max(1e-9, tree_cover_area))`. -/
def trees_uncapped (area_m2 nbs_pct : ℚ) (cell_type : String) (p : Params) : ℤ :=
  ⌊eff_nbs_area_of area_m2 nbs_pct cell_type p / max eps p.tree_cover_area⌋

/-- Roof load cap of `model.py` line 56:
`int((eff_nbs_area * max_roof_load) // tree_weight)`. -/
def roof_load_cap (area_m2 nbs_pct : ℚ) (cell_type : String) (p : Params) : ℤ :=
  ⌊eff_nbs_area_of area_m2 nbs_pct cell_type p * p.max_roof_load / p.tree_weight⌋

/-- Tree count of `model.py` lines 53-58: the floor count, capped by the
roof load ceiling when the cell type lowercases to `"roof"` and the tree
weight is positive. -/
def trees_of (area_m2 nbs_pct : ℚ) (cell_type : String) (p : Params) : ℤ :=
  if pyLower cell_type = "roof" ∧ 0 < p.tree_weight then
    if trees_uncapped area_m2 nbs_pct cell_type p >
        roof_load_cap area_m2 nbs_pct cell_type p then
      roof_load_cap area_m2 nbs_pct cell_type p
    else trees_uncapped area_m2 nbs_pct cell_type p
  else trees_uncapped area_m2 nbs_pct cell_type p

/-- Model of `compute_block_option_metrics` from `model.py` lines 43-65: the
(cost, co2) pair of one block under one option. -/
def compute_block_option_metrics (area_m2 res_pct nbs_pct : ℚ)
    (cell_type : String) (p : Params) : ℚ × ℚ :=
  (res_area_of area_m2 res_pct cell_type p * p.cost_res
      + (trees_of area_m2 nbs_pct cell_type p : ℚ) * p.cost_nbs,
    res_area_of area_m2 res_pct cell_type p * p.co2_res
      + (trees_of area_m2 nbs_pct cell_type p : ℚ) * p.co2_nbs)

/-- Model of `discount_factor` from `cli.py` lines 36-41: economies-of-scale factor
`1 - (1 - floor) * min(max(0, n) / N, 1)`, and `1` when `N ≤ 0`. -/
def discount_factor (f n N : ℚ) : ℚ :=
  if N ≤ 0 then 1 else 1 - (1 - f) * min (max 0 n / N) 1

/-- Claim-side metric formula, written from the words of claim C1 and of
spec section 4.1 WITHOUT the roof load cap step: the tree count is the
plain floor `⌊eff_nbs_area / max(ε, tree_cover_area)⌋` for every cell
type. -/
def claimOptionMetrics (area_m2 res_pct nbs_pct : ℚ)
    (cell_type : String) (p : Params) : ℚ × ℚ :=
  let cov := coverage_for_type p cell_type
  let res_area := max 0 (area_m2 * cov * max 0 res_pct)
  let effective_nbs_area := max 0 (area_m2 * cov * max 0 nbs_pct)
  let trees : ℤ := ⌊effective_nbs_area / max eps p.tree_cover_area⌋
  (res_area * p.cost_res + (trees : ℚ) * p.cost_nbs,
    res_area * p.co2_res + (trees : ℚ) * p.co2_nbs)

/-- Spec-side metric formula following the full bullet list of spec
section 4.1, including the roof load cap step between the floor and the
cost/co2 formulas. -/
def specOptionMetrics (area_m2 res_pct nbs_pct : ℚ)
    (cell_type : String) (p : Params) : ℚ × ℚ :=
  let cov := coverage_for_type p cell_type
  let res_area := max 0 (area_m2 * cov * max 0 res_pct)
  let effective_nbs_area := max 0 (area_m2 * cov * max 0 nbs_pct)
  let trees0 : ℤ := ⌊effective_nbs_area / max eps p.tree_cover_area⌋
  let trees : ℤ :=
    if pyLower cell_type = "roof" ∧ 0 < p.tree_weight then
      min trees0 ⌊effective_nbs_area * p.max_roof_load / p.tree_weight⌋
    else trees0
  (res_area * p.cost_res + (trees : ℚ) * p.cost_nbs,
    res_area * p.co2_res + (trees : ℚ) * p.co2_nbs)

/-- Parameters of the worked example in claim C1 (spec section 8,
scenario 1): co2_res 48, everything else at the dataclass defaults. -/
def paramsC1 : Params :=
  ⟨240, 48, 600, 25, 50, -1, -1, 5, 5, 400, 100, 1, 1, 10 ^ 30, 10 ^ 30⟩

/-- Same parameters with `max_roof_load = 20`, which makes the roof load
cap bind (cap `⌊20 * 20 / 400⌋ = 1` below the uncapped 4 trees). -/
def paramsC1roofCap : Params :=
  ⟨240, 48, 600, 25, 50, -1, -1, 5, 5, 400, 20, 1, 1, 10 ^ 30, 10 ^ 30⟩

/-- Default parameters with a negative tree weight (`-400`), for which the
code skips the roof cap branch entirely. -/
def paramsNegWeight : Params :=
  ⟨240, 71, 600, 25, 50, -1, -1, 5, 5, -400, 100, 1, 1, 10 ^ 30, 10 ^ 30⟩

/-- Integer option point `(cost_int, co2_int)` of `ortools_solver.py`. -/
abbrev IntPoint := ℤ × ℤ

/-- Frontier point `(cost_int, co2_int, selection)` as produced by the
solver layer; a selection is one option index per block. -/
abbrev FrontierPoint := ℤ × ℤ × List ℕ

/-- Scale factors of `ortools_solver.py` (dataclass `Scale`). -/
structure Scale where
  cost : ℤ
  co2 : ℤ

/-- Python `round` on a rational: round half to even. -/
def roundHalfEven (q : ℚ) : ℤ :=
  if q - ⌊q⌋ < 1 / 2 then ⌊q⌋
  else if 1 / 2 < q - ⌊q⌋ then ⌊q⌋ + 1
  else if ⌊q⌋ % 2 = 0 then ⌊q⌋ else ⌊q⌋ + 1

/-- Model of `scale_points` from `ortools_solver.py` lines 16-22: per-axis
`int(round(value * factor))`. -/
def scale_points (points : List (ℚ × ℚ)) (sc : Scale) : List IntPoint :=
  points.map fun cz =>
    (roundHalfEven (cz.1 * (sc.cost : ℚ)), roundHalfEven (cz.2 * (sc.co2 : ℚ)))

/-- The scale the CLI uses for both axes (`cli.py` line 293). -/
def cliScale : Scale := ⟨1000, 1000⟩

/-- All selections of one option index per block, in lexicographic order.
Enumerates the assignments of the exactly-one-per-block boolean model of
`build_model` (`ortools_solver.py` lines 25-57). -/
def allSelections : List (List IntPoint) → List (List ℕ)
  | [] => [[]]
  | opts :: rest =>
    (List.range opts.length).flatMap fun i =>
      (allSelections rest).map fun s => i :: s

/-- Total cost of a selection: sum over blocks of the chosen option cost
(`cost_expr` of `build_model`). -/
def selCost : List (List IntPoint) → List ℕ → ℤ
  | [], _ => 0
  | _, [] => 0
  | opts :: rest, i :: s => (opts.getD i (0, 0)).1 + selCost rest s

/-- Total CO2 of a selection (`co2_expr` of `build_model`). -/
def selCo2 : List (List IntPoint) → List ℕ → ℤ
  | [], _ => 0
  | _, [] => 0
  | opts :: rest, i :: s => (opts.getD i (0, 0)).2 + selCo2 rest s

/-- Selections that satisfy the budget ceiling `total_cost ≤ budget`. -/
def budgetFeasible (block_opts : List (List IntPoint)) (budget : ℤ) : List (List ℕ) :=
  (allSelections block_opts).filter fun s => decide (selCost block_opts s ≤ budget)

/-- Model of `solve_max_co2_under_budget` from `ortools_solver.py` lines 92-108,
with the external CP-SAT `_solve` call modelled by its interface contract
(spec sections 1 and 4.3): it yields an assignment maximizing CO2 among
the feasible ones, or reports infeasibility.  When `refine_lex` is set the
second pass minimizes cost among the max-CO2 solutions. -/
def solve_max_co2_under_budget (block_opts : List (List IntPoint))
    (budget : ℤ) (refine_lex : Bool) : Option FrontierPoint :=
  match (budgetFeasible block_opts budget).argmax (selCo2 block_opts) with
  | none => none
  | some s =>
    if refine_lex then
      match ((budgetFeasible block_opts budget).filter fun t =>
          decide (selCo2 block_opts t = selCo2 block_opts s)).argmin (selCost block_opts) with
      | none => none
      | some t => some (selCost block_opts t, selCo2 block_opts t, t)
    else some (selCost block_opts s, selCo2 block_opts s, s)

/-- Modelled from the spec: `solve_min_cost_above_co2` is imported by
`cli.py` (line 14) but its body is not among the provided sources.  Spec
section 4.3 (b): minimize total cost subject to `total_co2 ≥ co2_floor`,
`None` when infeasible. -/
def solve_min_cost_above_co2 (block_opts : List (List IntPoint))
    (co2_floor : ℤ) : Option FrontierPoint :=
  match ((allSelections block_opts).filter fun s =>
      decide (co2_floor ≤ selCo2 block_opts s)).argmin (selCost block_opts) with
  | none => none
  | some s => some (selCost block_opts s, selCo2 block_opts s, s)

/-- Modelled from the spec: `solve_both_constraints` is imported by
`cli.py` (line 15) but its body is not among the provided sources.  Spec
section 4.3 (c): maximize total CO2 subject to both `total_cost ≤ budget`
and `total_co2 ≥ co2_floor`, `None` when infeasible. -/
def solve_both_constraints (block_opts : List (List IntPoint))
    (budget co2_floor : ℤ) : Option FrontierPoint :=
  match ((allSelections block_opts).filter fun s =>
      decide (selCost block_opts s ≤ budget ∧ co2_floor ≤ selCo2 block_opts s)).argmax
      (selCo2 block_opts) with
  | none => none
  | some s => some (selCost block_opts s, selCo2 block_opts s, s)

/-- Cheapest cost of one block option list: `min(c for (c, _) in opts)`
as computed by `cli.py` line 394 (left fold of `min` over a nonempty
list; `0` is never reached on the nonempty lists the CLI feeds it). -/
def cheapest_cost : List IntPoint → ℤ
  | [] => 0
  | o :: rest => (rest.map Prod.fst).foldl min o.1

/-- The minimum achievable total budget of `cli.py` line 394: sum over
blocks of the cheapest option cost. -/
def min_budget_of (block_opts : List (List IntPoint)) : ℤ :=
  (block_opts.map cheapest_cost).sum

/-- Frontier rows the CLI emits in `max-co2-under-budget` mode
(`cli.py` lines 296-328): empty on `None`, otherwise the single unscaled
point `(c / scale.cost, z / scale.co2)`. -/
def cli_max_co2_points (block_opts : List (List IntPoint)) (budget : ℤ) :
    List (ℚ × ℚ) :=
  match solve_max_co2_under_budget block_opts budget false with
  | none => []
  | some (c, z, _) => [((c : ℚ) / (cliScale.cost : ℚ), (z : ℚ) / (cliScale.co2 : ℚ))]

/-- The `(cost, co2)` dedup key of a frontier point. -/
def ptKey (p : FrontierPoint) : ℤ × ℤ := (p.1, p.2.1)

/-- Specification-side first-occurrence deduplication: keeps a point only
when its `(cost, co2)` key was not seen before, preserving order. -/
def dedupFirstAux (seen : List (ℤ × ℤ)) : List FrontierPoint → List FrontierPoint
  | [] => []
  | p :: rest =>
    if ptKey p ∈ seen then dedupFirstAux seen rest
    else p :: dedupFirstAux (ptKey p :: seen) rest

/-- Domination order on frontier points: `q` dominates `p` when `q` costs
no more, yields no less CO2, and at least one inequality is strict (spec
section 3, Frontier Point). -/
def dominates (q p : FrontierPoint) : Prop :=
  q.1 ≤ p.1 ∧ p.2.1 ≤ q.2.1 ∧ (q.1 < p.1 ∨ p.2.1 < q.2.1)

/-- Stable insertion by cost, modelling that Python `list.sort` with key
`t[0]` is stable: an inserted point passes over strictly cheaper points
only, and hence lands before points of equal cost already present. -/
def insertByCost (p : FrontierPoint) : List FrontierPoint → List FrontierPoint
  | [] => [p]
  | q :: rest => if q.1 < p.1 then q :: insertByCost p rest else p :: q :: rest

/-- Stable sort by cost ascending (`points.sort(key=lambda t: t[0])` of
`ortools_solver.py` line 64). -/
def sortByCost (l : List FrontierPoint) : List FrontierPoint :=
  l.foldr insertByCost []

/-- The filtering loop of `prune_points` (`ortools_solver.py` lines 65-70):
keep a point exactly when its CO2 strictly exceeds the best seen so far. -/
def pruneLoop (best : ℤ) : List FrontierPoint → List FrontierPoint
  | [] => []
  | p :: rest => if best < p.2.1 then p :: pruneLoop p.2.1 rest else pruneLoop best rest

/-- Model of `prune_points` from `ortools_solver.py` lines 60-71: sort by cost
ascending, then keep strictly increasing CO2 starting from `-10^18`. -/
def prune_points (points : List FrontierPoint) : List FrontierPoint :=
  pruneLoop (-(10 ^ 18)) (sortByCost points)

/-- Budget samples of `frontier_by_budget_steps` (`ortools_solver.py`
lines 139-141): `steps` is clamped up to 2, then
`int(round(min + i * (max - min) / (steps - 1)))` for `i < steps`. -/
def stepsBudgets (min_budget max_budget : ℤ) (steps : ℕ) : List ℤ :=
  let s := if steps ≤ 1 then 2 else steps
  (List.range s).map fun i : ℕ =>
    roundHalfEven ((min_budget : ℚ) +
      (i : ℚ) * ((max_budget : ℚ) - (min_budget : ℚ)) / ((s : ℚ) - 1))

/-- The collection loop of `frontier_by_budget_steps` (lines 142-151):
solve at each budget, skip infeasible budgets, and append a result only
when its `(cost, co2)` pair is new. -/
def stepsLoop (block_opts : List (List IntPoint)) (refine_lex : Bool) :
    List ℤ → List (ℤ × ℤ) → List FrontierPoint → List FrontierPoint
  | [], _, out => out
  | B :: rest, seen, out =>
    match solve_max_co2_under_budget block_opts B refine_lex with
    | none => stepsLoop block_opts refine_lex rest seen out
    | some (c, z, sel) =>
      if (c, z) ∈ seen then stepsLoop block_opts refine_lex rest seen out
      else stepsLoop block_opts refine_lex rest ((c, z) :: seen) (out ++ [(c, z, sel)])

/-- Model of `frontier_by_budget_steps` from `ortools_solver.py` lines 137-152. -/
def frontier_by_budget_steps (block_opts : List (List IntPoint))
    (min_budget max_budget : ℤ) (steps : ℕ) (refine_lex prune : Bool) :
    List FrontierPoint :=
  let out := stepsLoop block_opts refine_lex
    (stepsBudgets min_budget max_budget steps) [] []
  if prune then prune_points out else out

/-- The while loop of `frontier_by_budget_tight` (`ortools_solver.py`
lines 117-133), made total with a fuel argument: each iteration solves at
the current budget, records the result if its `(cost, co2)` key is new,
and continues at `achieved cost - 1` only while that next budget is
nonnegative and strictly smaller.  The termination theorem shows fuel
`max_budget.toNat + 1` is always enough. -/
def tightLoopF (block_opts : List (List IntPoint)) (refine_lex : Bool) :
    ℕ → ℤ → List (ℤ × ℤ) → List FrontierPoint → List FrontierPoint
  | 0, _, _, results => results
  | fuel + 1, budget, seen, results =>
    if budget < 0 then results
    else
      match solve_max_co2_under_budget block_opts budget refine_lex with
      | none => results
      | some (c, z, sel) =>
        if (c, z) ∈ seen then
          if c - 1 < 0 ∨ budget ≤ c - 1 then results
          else tightLoopF block_opts refine_lex fuel (c - 1) seen results
        else
          if c - 1 < 0 ∨ budget ≤ c - 1 then results ++ [(c, z, sel)]
          else tightLoopF block_opts refine_lex fuel (c - 1)
            ((c, z) :: seen) (results ++ [(c, z, sel)])

/-- Number of solver invocations the tight sweep performs with the given
fuel, following the control flow of `tightLoopF` exactly. -/
def tightCallsF (block_opts : List (List IntPoint)) (refine_lex : Bool) :
    ℕ → ℤ → ℕ
  | 0, _ => 0
  | fuel + 1, budget =>
    if budget < 0 then 0
    else
      match solve_max_co2_under_budget block_opts budget refine_lex with
      | none => 1
      | some (c, _, _) =>
        if c - 1 < 0 ∨ budget ≤ c - 1 then 1
        else 1 + tightCallsF block_opts refine_lex fuel (c - 1)

/-- Model of `frontier_by_budget_tight` from `ortools_solver.py` lines 111-134,
run with the sufficient fuel `max_budget.toNat + 1`. -/
def frontier_by_budget_tight (block_opts : List (List IntPoint))
    (max_budget : ℤ) (refine_lex prune : Bool) : List FrontierPoint :=
  let out := tightLoopF block_opts refine_lex
    (max_budget.toNat + 1) max_budget [] []
  if prune then prune_points out else out

/-- One record of `options.csv` as seen by `load_ground_options`, with the
numeric fields holding the result of the Python float parse performed by
`_normalize_pct` (unparsable strings become `0.0` at that parse boundary,
outside this model). -/
structure OptionRow where
  mix_id : String
  cell_type : String
  res_pct : ℚ
  nbs_pct : ℚ
  label : String

/-- Ground option record (`options.py` dataclass `GroundOption`). -/
structure GroundOption where
  mix_id : String
  res_pct : ℚ
  nbs_pct : ℚ
  label : String
deriving DecidableEq

/-- The numeric part of `_normalize_pct` (`options.py` lines 14-21):
values above 1 are interpreted as 0..100 percentages. -/
def normalize_pct (x : ℚ) : ℚ := if x > 1 then x / 100 else x

/-- Model of `load_ground_options` from `options.py` lines 23-44: keep rows whose
cell type strips and lowercases to `"ground"`, normalize the percentages,
apply the maximum-percentage ceilings, and fail when nothing is left. -/
def load_ground_options (rows : List OptionRow)
    (max_pct_res max_pct_nbs : ℚ) : Except String (List GroundOption) :=
  let out := rows.filterMap fun row =>
    if pyLower (pyStrip row.cell_type) = "ground" then
      if normalize_pct row.res_pct ≤ max_pct_res ∧
          normalize_pct row.nbs_pct ≤ max_pct_nbs then
        some ⟨pyStrip row.mix_id, normalize_pct row.res_pct,
          normalize_pct row.nbs_pct, pyStrip row.label⟩
      else none
    else none
  if out = [] then
    Except.error "No ground options available after applying max percentage filters."
  else Except.ok out

/-- Tiny one-block instance (two options) used by concrete witnesses. -/
def oneBlockW : List (List IntPoint) := [[(5, 1), (10, 3)]]

/-- Tiny two-block instance (one option each, costs 5 and 7) used by
concrete witnesses. -/
def twoBlocksW : List (List IntPoint) := [[(5, 1)], [(7, 2)]]

/-!  Theorems.  Helper lemmas come first, then one theorem per claim
(with counterexamples and witnesses where required). -/

lemma eff_nbs_area_nonneg (area nbs : ℚ) (ct : String) (p : Params) :
    0 ≤ eff_nbs_area_of area nbs ct p :=
  le_max_left 0 _

lemma res_area_nonneg (area res : ℚ) (ct : String) (p : Params) :
    0 ≤ res_area_of area res ct p :=
  le_max_left 0 _

lemma trees_uncapped_nonneg (area nbs : ℚ) (ct : String) (p : Params) :
    0 ≤ trees_uncapped area nbs ct p := by
  unfold trees_uncapped
  refine Int.floor_nonneg.mpr (div_nonneg (eff_nbs_area_nonneg area nbs ct p) ?_)
  have h : (0 : ℚ) < eps := by norm_num [eps]
  exact le_trans h.le (le_max_left _ _)

lemma trees_of_nonneg (area nbs : ℚ) (ct : String) (p : Params)
    (hml : 0 ≤ p.max_roof_load) : 0 ≤ trees_of area nbs ct p := by
  unfold trees_of
  split
  · next h =>
    have hcap : (0 : ℤ) ≤ roof_load_cap area nbs ct p := by
      unfold roof_load_cap
      exact Int.floor_nonneg.mpr
        (div_nonneg (mul_nonneg (eff_nbs_area_nonneg area nbs ct p) hml) h.2.le)
    split
    · exact hcap
    · exact trees_uncapped_nonneg area nbs ct p
  · exact trees_uncapped_nonneg area nbs ct p

lemma trees_of_eq_min (area nbs : ℚ) (ct : String) (p : Params) :
    trees_of area nbs ct p =
      if pyLower ct = "roof" ∧ 0 < p.tree_weight then
        min (trees_uncapped area nbs ct p) (roof_load_cap area nbs ct p)
      else trees_uncapped area nbs ct p := by
  unfold trees_of
  split
  · by_cases hgt : trees_uncapped area nbs ct p > roof_load_cap area nbs ct p
    · rw [if_pos hgt, min_eq_right hgt.le]
    · rw [if_neg hgt, min_eq_left (not_lt.mp hgt)]
  · rfl

/-- C1 counterexample: on a roof block with a binding load cap
(`max_roof_load = 20`) the code caps the tree count at 1, so the claimed
uncapped formulas (9600, 1540) do not match the computed (7800, 1465). -/
theorem metrics_formula_counterexample :
    compute_block_option_metrics 100 (6/10) (4/10) "roof" paramsC1roofCap = (7800, 1465) ∧
    claimOptionMetrics 100 (6/10) (4/10) "roof" paramsC1roofCap = (9600, 1540) ∧
    compute_block_option_metrics 100 (6/10) (4/10) "roof" paramsC1roofCap ≠
      claimOptionMetrics 100 (6/10) (4/10) "roof" paramsC1roofCap := by
  have h1 : pyLower (pyStrip "roof") = "roof" := by decide
  have h2 : pyLower "roof" = "roof" := by decide
  have e1 : compute_block_option_metrics 100 (6/10) (4/10) "roof" paramsC1roofCap
      = (7800, 1465) := by
    norm_num [compute_block_option_metrics, res_area_of, eff_nbs_area_of, trees_of,
      trees_uncapped, roof_load_cap, coverage_for_type, eps, paramsC1roofCap, h1, h2]
  have e2 : claimOptionMetrics 100 (6/10) (4/10) "roof" paramsC1roofCap
      = (9600, 1540) := by
    norm_num [claimOptionMetrics, coverage_for_type, eps, paramsC1roofCap, h1]
  refine ⟨e1, e2, ?_⟩
  rw [e1, e2]
  norm_num [Prod.ext_iff]

/-- C1 (amended): `compute_block_option_metrics` realizes the spec 4.1
formulas once the roof load cap step is included in the tree count, and
the worked ground example evaluates to exactly (9600, 1540). -/
theorem metrics_formula_amended :
    (∀ (area res nbs : ℚ) (ct : String) (p : Params),
      compute_block_option_metrics area res nbs ct p = specOptionMetrics area res nbs ct p) ∧
    compute_block_option_metrics 100 (6/10) (4/10) "ground" paramsC1 = (9600, 1540) := by
  constructor
  · intro area res nbs ct p
    unfold compute_block_option_metrics specOptionMetrics
    rw [trees_of_eq_min]
    rfl
  · have h1 : pyLower (pyStrip "ground") = "ground" := by decide
    have h2 : pyLower "ground" ≠ "roof" := by decide
    norm_num [compute_block_option_metrics, res_area_of, eff_nbs_area_of, trees_of,
      trees_uncapped, coverage_for_type, eps, paramsC1, h1, h2]

/-- C7 counterexample: with a negative tree weight the code never applies
the cap, so on a roof block 4 trees exceed the claimed bound, which
evaluates to -5; hence the unconditional roof bound of the spec fails. -/
theorem roof_cap_counterexample :
    trees_of 100 (4/10) "roof" paramsNegWeight = 4 ∧
    roof_load_cap 100 (4/10) "roof" paramsNegWeight = -5 ∧
    ¬ trees_of 100 (4/10) "roof" paramsNegWeight ≤
        roof_load_cap 100 (4/10) "roof" paramsNegWeight := by
  have h1 : pyLower (pyStrip "roof") = "roof" := by decide
  have h2 : pyLower "roof" = "roof" := by decide
  have e1 : trees_of 100 (4/10) "roof" paramsNegWeight = 4 := by
    norm_num [trees_of, trees_uncapped, coverage_for_type, eff_nbs_area_of, eps,
      paramsNegWeight, h1, h2]
  have e2 : roof_load_cap 100 (4/10) "roof" paramsNegWeight = -5 := by
    norm_num [roof_load_cap, eff_nbs_area_of, coverage_for_type, eps,
      paramsNegWeight, h1]
  refine ⟨e1, e2, ?_⟩
  rw [e1, e2]
  norm_num

/-- C7 (amended): for a cell type that lowercases to `"roof"` and a
positive tree weight, the tree count never exceeds
`⌊eff_nbs_area * max_roof_load / tree_weight⌋`. -/
theorem roof_cap_amended (area nbs : ℚ) (ct : String) (p : Params)
    (hct : pyLower ct = "roof") (hw : 0 < p.tree_weight) :
    trees_of area nbs ct p ≤
      ⌊eff_nbs_area_of area nbs ct p * p.max_roof_load / p.tree_weight⌋ := by
  show trees_of area nbs ct p ≤ roof_load_cap area nbs ct p
  unfold trees_of
  rw [if_pos ⟨hct, hw⟩]
  split
  · exact le_refl _
  · next h => exact not_lt.mp h

/-- Witness for C7 at the default parameters on a roof block. -/
theorem roof_cap_witness :
    pyLower "roof" = "roof" ∧ 0 < defaultParams.tree_weight ∧
    trees_of 100 (4/10) "roof" defaultParams ≤
      ⌊eff_nbs_area_of 100 (4/10) "roof" defaultParams * defaultParams.max_roof_load /
        defaultParams.tree_weight⌋ :=
  ⟨by decide, by norm_num [defaultParams],
    roof_cap_amended 100 (4/10) "roof" defaultParams (by decide)
      (by norm_num [defaultParams])⟩

/-- C8: under nonnegative cost/CO2 intensities and nonnegative roof-load
parameters, both components of the metric pair are nonnegative. -/
theorem metrics_nonneg (area res nbs : ℚ) (ct : String) (p : Params)
    (harea : 0 < area) (hcr : 0 ≤ p.cost_res) (hzr : 0 ≤ p.co2_res)
    (hcn : 0 ≤ p.cost_nbs) (hzn : 0 ≤ p.co2_nbs)
    (hml : 0 ≤ p.max_roof_load) (htw : 0 ≤ p.tree_weight) :
    0 ≤ (compute_block_option_metrics area res nbs ct p).1 ∧
    0 ≤ (compute_block_option_metrics area res nbs ct p).2 := by
  have htq : (0 : ℚ) ≤ (trees_of area nbs ct p : ℚ) := by
    exact_mod_cast trees_of_nonneg area nbs ct p hml
  have hra : (0 : ℚ) ≤ res_area_of area res ct p := res_area_nonneg area res ct p
  exact ⟨add_nonneg (mul_nonneg hra hcr) (mul_nonneg htq hcn),
    add_nonneg (mul_nonneg hra hzr) (mul_nonneg htq hzn)⟩

/-- Witness for C8 at the default parameters on a ground block. -/
theorem metrics_nonneg_witness :
    0 < (100 : ℚ) ∧ 0 ≤ defaultParams.cost_res ∧ 0 ≤ defaultParams.co2_res ∧
    0 ≤ defaultParams.cost_nbs ∧ 0 ≤ defaultParams.co2_nbs ∧
    0 ≤ defaultParams.max_roof_load ∧ 0 ≤ defaultParams.tree_weight ∧
    (0 ≤ (compute_block_option_metrics 100 (6/10) (4/10) "ground" defaultParams).1 ∧
      0 ≤ (compute_block_option_metrics 100 (6/10) (4/10) "ground" defaultParams).2) :=
  ⟨by norm_num, by norm_num [defaultParams], by norm_num [defaultParams],
    by norm_num [defaultParams], by norm_num [defaultParams],
    by norm_num [defaultParams], by norm_num [defaultParams],
    metrics_nonneg 100 (6/10) (4/10) "ground" defaultParams (by norm_num)
      (by norm_num [defaultParams]) (by norm_num [defaultParams])
      (by norm_num [defaultParams]) (by norm_num [defaultParams])
      (by norm_num [defaultParams]) (by norm_num [defaultParams])⟩

/-- C10: for a floor in [0,1], any quantity and any threshold, the
economies-of-scale factor lies in the interval [floor, 1]. -/
theorem discount_factor_range (f n N : ℚ) (h0 : 0 ≤ f) (h1 : f ≤ 1) :
    f ≤ discount_factor f n N ∧ discount_factor f n N ≤ 1 := by
  unfold discount_factor
  split
  · exact ⟨h1, le_refl 1⟩
  · next hN =>
    push_neg at hN
    have hphi0 : 0 ≤ min (max 0 n / N) 1 :=
      le_min (div_nonneg (le_max_left 0 n) hN.le) zero_le_one
    have hphi1 : min (max 0 n / N) 1 ≤ 1 := min_le_right _ _
    have hb : (1 - f) * min (max 0 n / N) 1 ≤ (1 - f) * 1 :=
      mul_le_mul_of_nonneg_left hphi1 (by linarith)
    have hc : 0 ≤ (1 - f) * min (max 0 n / N) 1 :=
      mul_nonneg (by linarith) hphi0
    constructor
    · linarith
    · linarith

/-- Witness for C10 matching spec scenario 5: floor 1/2, 50 of 100 units
give a factor of 3/4, inside [1/2, 1]. -/
theorem discount_factor_range_witness :
    (0 : ℚ) ≤ 1/2 ∧ (1/2 : ℚ) ≤ 1 ∧
    ((1/2 : ℚ) ≤ discount_factor (1/2) 50 100 ∧ discount_factor (1/2) 50 100 ≤ 1) :=
  ⟨by norm_num, by norm_num,
    discount_factor_range (1/2) 50 100 (by norm_num) (by norm_num)⟩

lemma foldl_min_le_init (l : List ℤ) (a : ℤ) : l.foldl min a ≤ a := by
  induction l generalizing a with
  | nil => exact le_refl a
  | cons b t ih => exact (ih (min a b)).trans (min_le_left a b)

lemma foldl_min_le_mem (l : List ℤ) (a b : ℤ) (hb : b ∈ l) : l.foldl min a ≤ b := by
  induction l generalizing a with
  | nil => cases hb
  | cons c t ih =>
    rcases List.mem_cons.mp hb with h | h
    · subst h
      exact (foldl_min_le_init t (min a b)).trans (min_le_right a b)
    · exact ih (min a c) h

lemma cheapest_cost_le (opts : List IntPoint) (o : IntPoint) (ho : o ∈ opts) :
    cheapest_cost opts ≤ o.1 := by
  cases opts with
  | nil => cases ho
  | cons o0 rest =>
    rcases List.mem_cons.mp ho with h | h
    · subst h
      exact foldl_min_le_init (rest.map Prod.fst) o.1
    · exact foldl_min_le_mem (rest.map Prod.fst) o0.1 o.1 (List.mem_map.mpr ⟨o, h, rfl⟩)

lemma min_budget_le_selCost (bo : List (List IntPoint)) (s : List ℕ)
    (hs : s ∈ allSelections bo) : min_budget_of bo ≤ selCost bo s := by
  induction bo generalizing s with
  | nil =>
    simp only [allSelections, List.mem_singleton] at hs
    subst hs
    simp [min_budget_of, selCost]
  | cons opts rest ih =>
    simp only [allSelections, List.mem_flatMap, List.mem_map, List.mem_range] at hs
    obtain ⟨i, hi, t, ht, rfl⟩ := hs
    have h1 : cheapest_cost opts ≤ (opts.getD i (0, 0)).1 := by
      rw [List.getD_eq_getElem opts (0, 0) hi]
      exact cheapest_cost_le opts _ (List.getElem_mem hi)
    have h2 : min_budget_of rest ≤ selCost rest t := ih t ht
    show cheapest_cost opts + min_budget_of rest ≤ (opts.getD i (0, 0)).1 + selCost rest t
    exact add_le_add h1 h2

/-- C2: the two additional solve modes behave per spec section 4.3.
Mode (b) minimizes total cost subject to the CO2 floor whenever any
selection meets the floor; mode (c) maximizes total CO2 subject to both
the budget ceiling and the CO2 floor whenever some selection satisfies
both.  In each case the returned totals are those of a returned
selection, the stated constraints hold, and the objective is optimal. -/
theorem solver_modes_spec (bo : List (List IntPoint)) (B co2_floor : ℤ) :
    ((∃ s ∈ allSelections bo, co2_floor ≤ selCo2 bo s) →
      ∃ c z sel, solve_min_cost_above_co2 bo co2_floor = some (c, z, sel) ∧
        sel ∈ allSelections bo ∧ c = selCost bo sel ∧ z = selCo2 bo sel ∧
        co2_floor ≤ z ∧
        ∀ s ∈ allSelections bo, co2_floor ≤ selCo2 bo s → c ≤ selCost bo s) ∧
    ((∃ s ∈ allSelections bo, selCost bo s ≤ B ∧ co2_floor ≤ selCo2 bo s) →
      ∃ c z sel, solve_both_constraints bo B co2_floor = some (c, z, sel) ∧
        sel ∈ allSelections bo ∧ c = selCost bo sel ∧ z = selCo2 bo sel ∧
        c ≤ B ∧ co2_floor ≤ z ∧
        ∀ s ∈ allSelections bo, selCost bo s ≤ B → co2_floor ≤ selCo2 bo s →
          selCo2 bo s ≤ z) := by
  constructor
  · rintro ⟨s0, hs0, hz0⟩
    have hs0l : s0 ∈ (allSelections bo).filter fun s => decide (co2_floor ≤ selCo2 bo s) :=
      List.mem_filter.mpr ⟨hs0, by simpa using hz0⟩
    obtain ⟨m, hm⟩ : ∃ m,
        ((allSelections bo).filter fun s => decide (co2_floor ≤ selCo2 bo s)).argmin
          (selCost bo) = some m := by
      cases hargm : ((allSelections bo).filter
          fun s => decide (co2_floor ≤ selCo2 bo s)).argmin (selCost bo) with
      | none =>
        rw [List.argmin_eq_none.mp hargm] at hs0l
        cases hs0l
      | some m => exact ⟨m, rfl⟩
    have hmem : m ∈ (allSelections bo).filter fun s => decide (co2_floor ≤ selCo2 bo s) :=
      List.argmin_mem hm
    have hmem2 := List.mem_filter.mp hmem
    refine ⟨selCost bo m, selCo2 bo m, m, ?_, hmem2.1, rfl, rfl, by simpa using hmem2.2, ?_⟩
    · unfold solve_min_cost_above_co2
      rw [hm]
    · intro s hs hz
      exact List.le_of_mem_argmin (List.mem_filter.mpr ⟨hs, by simpa using hz⟩) hm
  · rintro ⟨s0, hs0, hc0, hz0⟩
    have hs0l : s0 ∈ (allSelections bo).filter
        fun s => decide (selCost bo s ≤ B ∧ co2_floor ≤ selCo2 bo s) :=
      List.mem_filter.mpr ⟨hs0, by simp [hc0, hz0]⟩
    obtain ⟨m, hm⟩ : ∃ m,
        ((allSelections bo).filter
          fun s => decide (selCost bo s ≤ B ∧ co2_floor ≤ selCo2 bo s)).argmax
          (selCo2 bo) = some m := by
      cases hargm : ((allSelections bo).filter
          fun s => decide (selCost bo s ≤ B ∧ co2_floor ≤ selCo2 bo s)).argmax
          (selCo2 bo) with
      | none =>
        rw [List.argmax_eq_none.mp hargm] at hs0l
        cases hs0l
      | some m => exact ⟨m, rfl⟩
    have hmem : m ∈ (allSelections bo).filter
        fun s => decide (selCost bo s ≤ B ∧ co2_floor ≤ selCo2 bo s) :=
      List.argmax_mem hm
    have hmem2 := List.mem_filter.mp hmem
    have hcz : selCost bo m ≤ B ∧ co2_floor ≤ selCo2 bo m := by simpa using hmem2.2
    refine ⟨selCost bo m, selCo2 bo m, m, ?_, hmem2.1, rfl, rfl, hcz.1, hcz.2, ?_⟩
    · unfold solve_both_constraints
      rw [hm]
    · intro s hs hc hz
      exact List.le_of_mem_argmax (List.mem_filter.mpr ⟨hs, by simp [hc, hz]⟩) hm

/-- Witness for C2 on a one-block instance: the cheaper option misses the
CO2 floor 2, the costlier one meets it within budget 10. -/
theorem solver_modes_witness :
    (∃ s ∈ allSelections oneBlockW, (2 : ℤ) ≤ selCo2 oneBlockW s) ∧
    (∃ s ∈ allSelections oneBlockW, selCost oneBlockW s ≤ 10 ∧ (2 : ℤ) ≤ selCo2 oneBlockW s) ∧
    (∃ c z sel, solve_min_cost_above_co2 oneBlockW 2 = some (c, z, sel) ∧
      sel ∈ allSelections oneBlockW ∧ c = selCost oneBlockW sel ∧ z = selCo2 oneBlockW sel ∧
      (2 : ℤ) ≤ z ∧
      ∀ s ∈ allSelections oneBlockW, 2 ≤ selCo2 oneBlockW s → c ≤ selCost oneBlockW s) ∧
    (∃ c z sel, solve_both_constraints oneBlockW 10 2 = some (c, z, sel) ∧
      sel ∈ allSelections oneBlockW ∧ c = selCost oneBlockW sel ∧ z = selCo2 oneBlockW sel ∧
      c ≤ 10 ∧ (2 : ℤ) ≤ z ∧
      ∀ s ∈ allSelections oneBlockW, selCost oneBlockW s ≤ 10 → 2 ≤ selCo2 oneBlockW s →
        selCo2 oneBlockW s ≤ z) :=
  ⟨⟨[1], by decide, by decide⟩, ⟨[1], by decide, by decide, by decide⟩,
    (solver_modes_spec oneBlockW 10 2).1 ⟨[1], by decide, by decide⟩,
    (solver_modes_spec oneBlockW 10 2).2 ⟨[1], by decide, by decide, by decide⟩⟩

/-- C5: the budget solve returns `None` exactly when no selection fits the
budget; in particular it does when the budget is below the sum of the
per-block cheapest options, and the CLI then emits no frontier rows. -/
theorem solve_infeasible_spec (bo : List (List IntPoint)) (B : ℤ) :
    (solve_max_co2_under_budget bo B false = none ↔
      ¬ ∃ s ∈ allSelections bo, selCost bo s ≤ B) ∧
    ((∀ opts ∈ bo, opts ≠ []) → B < min_budget_of bo →
      solve_max_co2_under_budget bo B false = none) ∧
    (solve_max_co2_under_budget bo B false = none → cli_max_co2_points bo B = []) := by
  have hmain : solve_max_co2_under_budget bo B false = none ↔
      ¬ ∃ s ∈ allSelections bo, selCost bo s ≤ B := by
    cases h : (budgetFeasible bo B).argmax (selCo2 bo) with
    | none =>
      have hnone : solve_max_co2_under_budget bo B false = none := by
        simp only [solve_max_co2_under_budget, h]
      have hempty : budgetFeasible bo B = [] := List.argmax_eq_none.mp h
      unfold budgetFeasible at hempty
      rw [List.filter_eq_nil_iff] at hempty
      simp only [decide_eq_true_eq] at hempty
      refine iff_of_true hnone ?_
      rintro ⟨s, hs, hc⟩
      exact hempty s hs hc
    | some s =>
      have hsome : solve_max_co2_under_budget bo B false
          = some (selCost bo s, selCo2 bo s, s) := by
        simp only [solve_max_co2_under_budget, h, Bool.false_eq_true, if_false]
      have hsmem := List.mem_filter.mp (List.argmax_mem (show s ∈ _ from h))
      refine iff_of_false (by simp [hsome]) ?_
      rw [not_not]
      exact ⟨s, hsmem.1, by simpa using hsmem.2⟩
  refine ⟨hmain, ?_, ?_⟩
  · intro hne hB
    refine hmain.mpr ?_
    rintro ⟨s, hs, hc⟩
    have := min_budget_le_selCost bo s hs
    omega
  · intro h
    unfold cli_max_co2_points
    rw [h]

/-- Witness for C5: two blocks with cheapest costs 5 and 7; budget 11 is
below their sum 12, and the solve reports infeasibility. -/
theorem solve_infeasible_witness :
    (∀ opts ∈ twoBlocksW, opts ≠ []) ∧ (11 : ℤ) < min_budget_of twoBlocksW ∧
    solve_max_co2_under_budget twoBlocksW 11 false = none :=
  ⟨by decide, by decide,
    (solve_infeasible_spec twoBlocksW 11).2.1 (by decide) (by decide)⟩

lemma mem_insertByCost (p q : FrontierPoint) (l : List FrontierPoint) :
    q ∈ insertByCost p l ↔ q = p ∨ q ∈ l := by
  induction l with
  | nil => simp [insertByCost]
  | cons r t ih =>
    simp only [insertByCost]
    split
    · simp only [List.mem_cons, ih]
      tauto
    · simp only [List.mem_cons]

lemma insertByCost_sorted (p : FrontierPoint) (l : List FrontierPoint)
    (hl : l.Pairwise fun a b => a.1 ≤ b.1) :
    (insertByCost p l).Pairwise fun a b => a.1 ≤ b.1 := by
  induction l with
  | nil => simp [insertByCost]
  | cons r t ih =>
    rcases List.pairwise_cons.mp hl with ⟨hr, ht⟩
    simp only [insertByCost]
    split
    · next hlt =>
      refine List.pairwise_cons.mpr ⟨?_, ih ht⟩
      intro q hq
      rcases (mem_insertByCost p q t).mp hq with rfl | hqt
      · exact hlt.le
      · exact hr q hqt
    · next hge =>
      refine List.pairwise_cons.mpr ⟨?_, hl⟩
      intro q hq
      rcases List.mem_cons.mp hq with rfl | hqt
      · exact not_lt.mp hge
      · exact (not_lt.mp hge).trans (hr q hqt)

lemma sortByCost_sorted (l : List FrontierPoint) :
    (sortByCost l).Pairwise fun a b => a.1 ≤ b.1 := by
  induction l with
  | nil => simp [sortByCost]
  | cons p t ih => exact insertByCost_sorted p (sortByCost t) ih

lemma pruneLoop_sublist (best : ℤ) (l : List FrontierPoint) :
    (pruneLoop best l).Sublist l := by
  induction l generalizing best with
  | nil => simp [pruneLoop]
  | cons p t ih =>
    simp only [pruneLoop]
    split
    · exact (ih p.2.1).cons₂ p
    · exact (ih best).cons p

lemma pruneLoop_mem_gt (l : List FrontierPoint) (q : FrontierPoint) :
    ∀ best : ℤ, q ∈ pruneLoop best l → best < q.2.1 := by
  induction l with
  | nil =>
    intro best hq
    simp [pruneLoop] at hq
  | cons p t ih =>
    intro best hq
    simp only [pruneLoop] at hq
    split at hq
    · next h =>
      rcases List.mem_cons.mp hq with rfl | hq2
      · exact h
      · exact h.trans (ih p.2.1 hq2)
    · exact ih best hq

lemma pruneLoop_pairwise (best : ℤ) (l : List FrontierPoint) :
    (pruneLoop best l).Pairwise fun a b => a.2.1 < b.2.1 := by
  induction l generalizing best with
  | nil => simp [pruneLoop]
  | cons p t ih =>
    simp only [pruneLoop]
    split
    · exact List.pairwise_cons.mpr ⟨fun q hq => pruneLoop_mem_gt t q p.2.1 hq, ih p.2.1⟩
    · exact ih best

lemma pairwise_mem_cases {α : Type} {R : α → α → Prop} (l : List α)
    (hl : l.Pairwise R) (p q : α) (hp : p ∈ l) (hq : q ∈ l) :
    p = q ∨ R p q ∨ R q p := by
  induction l with
  | nil => cases hp
  | cons a t ih =>
    rcases List.pairwise_cons.mp hl with ⟨ha, ht⟩
    rcases List.mem_cons.mp hp with rfl | hp2
    · rcases List.mem_cons.mp hq with rfl | hq2
      · exact Or.inl rfl
      · exact Or.inr (Or.inl (ha q hq2))
    · rcases List.mem_cons.mp hq with rfl | hq2
      · exact Or.inr (Or.inr (ha p hp2))
      · exact ih ht hp2 hq2

/-- C4 counterexample: on two equal-cost points the pruned output keeps
both, and the later point dominates the earlier one, so the claim that no
returned point is dominated fails (as does it for the input points). -/
theorem prune_points_counterexample :
    prune_points [(1, 5, []), (1, 10, [])] = [(1, 5, []), (1, 10, [])] ∧
    (1, 5, ([] : List ℕ)) ∈ prune_points [(1, 5, []), (1, 10, [])] ∧
    (1, 10, ([] : List ℕ)) ∈ prune_points [(1, 5, []), (1, 10, [])] ∧
    dominates (1, 10, []) (1, 5, []) :=
  ⟨by decide, by decide, by decide, ⟨by decide, by decide, Or.inr (by decide)⟩⟩

/-- C4 (amended): the pruned list is sorted by cost ascending with
strictly increasing CO2, no two points share a (cost, co2) pair, and no
point is dominated by another output point of different cost (between
equal-cost points domination can remain, as the counterexample shows). -/
theorem prune_points_amended (points : List FrontierPoint) :
    (prune_points points).Pairwise (fun a b => a.1 ≤ b.1 ∧ a.2.1 < b.2.1) ∧
    (prune_points points).Pairwise (fun a b => ptKey a ≠ ptKey b) ∧
    ∀ p ∈ prune_points points, ∀ q ∈ prune_points points, q.1 ≠ p.1 →
      ¬ dominates q p := by
  have hsorted := sortByCost_sorted points
  have hsub := pruneLoop_sublist (-(10 ^ 18)) (sortByCost points)
  have hcost : (prune_points points).Pairwise fun a b => a.1 ≤ b.1 :=
    List.Pairwise.sublist hsub hsorted
  have hco2 : (prune_points points).Pairwise fun a b => a.2.1 < b.2.1 :=
    pruneLoop_pairwise _ _
  have hboth : (prune_points points).Pairwise fun a b => a.1 ≤ b.1 ∧ a.2.1 < b.2.1 :=
    hcost.and hco2
  refine ⟨hboth, ?_, ?_⟩
  · refine hco2.imp ?_
    intro a b hab heq
    exact absurd (congrArg Prod.snd heq) (ne_of_lt hab)
  · intro p hp q hq hne hdom
    obtain ⟨h1, h2, h3⟩ := hdom
    rcases pairwise_mem_cases _ hboth p q hp hq with rfl | ⟨hc, hz⟩ | ⟨hc, hz⟩
    · exact hne rfl
    · exact hne (le_antisymm h1 hc)
    · exact absurd h2 (not_le.mpr hz)

/-- Witness for C4 on two distinct-cost points: both survive pruning and
neither is dominated by the other. -/
theorem prune_points_witness :
    (1, 5, ([] : List ℕ)) ∈ prune_points [(1, 5, []), (2, 7, [])] ∧
    (2, 7, ([] : List ℕ)) ∈ prune_points [(1, 5, []), (2, 7, [])] ∧
    (2 : ℤ) ≠ 1 ∧ ¬ dominates (2, 7, []) (1, 5, []) :=
  ⟨by decide, by decide, by decide,
    (prune_points_amended [(1, 5, []), (2, 7, [])]).2.2 (1, 5, []) (by decide)
      (2, 7, []) (by decide) (by decide)⟩

lemma roundHalfEven_intCast (z : ℤ) : roundHalfEven (z : ℚ) = z := by
  unfold roundHalfEven
  rw [Int.floor_intCast]
  rw [if_pos (by norm_num)]

lemma roundHalfEven_eq_of_eq_intCast (q : ℚ) (z : ℤ) (h : q = (z : ℚ)) :
    roundHalfEven q = z := by
  rw [h, roundHalfEven_intCast]

lemma stepsBudgets_eq (minB maxB : ℤ) (S : ℕ) (hS : 2 ≤ S) :
    stepsBudgets minB maxB S = (List.range S).map fun i : ℕ =>
      roundHalfEven ((minB : ℚ) + (i : ℚ) * ((maxB : ℚ) - (minB : ℚ)) / ((S : ℚ) - 1)) := by
  simp only [stepsBudgets, if_neg (show ¬ S ≤ 1 by omega)]

lemma stepsBudgets_getD (minB maxB : ℤ) (S : ℕ) (hS : 2 ≤ S) (i : ℕ) (hi : i < S) :
    (stepsBudgets minB maxB S).getD i 0 =
      roundHalfEven ((minB : ℚ) + (i : ℚ) * ((maxB : ℚ) - (minB : ℚ)) / ((S : ℚ) - 1)) := by
  rw [stepsBudgets_eq minB maxB S hS]
  rw [List.getD_eq_getElem _ _ (by rw [List.length_map, List.length_range]; exact hi)]
  simp only [List.getElem_map, List.getElem_range]

lemma stepsLoop_eq_dedup (bo : List (List IntPoint)) (rl : Bool) (budgets : List ℤ) :
    ∀ (seen : List (ℤ × ℤ)) (out : List FrontierPoint),
      stepsLoop bo rl budgets seen out =
        out ++ dedupFirstAux seen
          (budgets.filterMap fun B => solve_max_co2_under_budget bo B rl) := by
  induction budgets with
  | nil =>
    intro seen out
    simp [stepsLoop, dedupFirstAux]
  | cons B rest ih =>
    intro seen out
    cases h : solve_max_co2_under_budget bo B rl with
    | none =>
      simp only [stepsLoop, h, List.filterMap_cons]
      exact ih seen out
    | some p =>
      obtain ⟨c, z, sel⟩ := p
      simp only [stepsLoop, h, List.filterMap_cons]
      by_cases hmem : (c, z) ∈ seen
      · rw [if_pos hmem]
        have hkey : ptKey (c, z, sel) ∈ seen := hmem
        simp only [dedupFirstAux, if_pos hkey]
        exact ih seen out
      · rw [if_neg hmem]
        have hkey : ptKey (c, z, sel) ∉ seen := hmem
        simp only [dedupFirstAux, if_neg hkey]
        rw [ih ((c, z) :: seen) (out ++ [(c, z, sel)])]
        simp [ptKey]

lemma dedupFirstAux_not_mem_seen (l : List FrontierPoint) :
    ∀ seen, ∀ p ∈ dedupFirstAux seen l, ptKey p ∉ seen := by
  induction l with
  | nil =>
    intro seen p hp
    simp [dedupFirstAux] at hp
  | cons q rest ih =>
    intro seen p hp
    simp only [dedupFirstAux] at hp
    split at hp
    · exact ih seen p hp
    · next hq =>
      rcases List.mem_cons.mp hp with rfl | hp2
      · exact hq
      · have h2 := ih (ptKey q :: seen) p hp2
        exact fun hmem => h2 (List.mem_cons_of_mem _ hmem)

lemma dedupFirstAux_pairwise (l : List FrontierPoint) :
    ∀ seen, (dedupFirstAux seen l).Pairwise fun a b => ptKey a ≠ ptKey b := by
  induction l with
  | nil =>
    intro seen
    simp [dedupFirstAux]
  | cons q rest ih =>
    intro seen
    simp only [dedupFirstAux]
    split
    · exact ih seen
    · refine List.pairwise_cons.mpr ⟨?_, ih (ptKey q :: seen)⟩
      intro b hb heq
      have h2 := dedupFirstAux_not_mem_seen rest (ptKey q :: seen) b hb
      refine h2 ?_
      rw [← heq]
      exact List.mem_cons_self _ _

lemma dedupFirstAux_sublist (l : List FrontierPoint) :
    ∀ seen, (dedupFirstAux seen l).Sublist l := by
  induction l with
  | nil =>
    intro seen
    simp [dedupFirstAux]
  | cons q rest ih =>
    intro seen
    simp only [dedupFirstAux]
    split
    · exact (ih seen).cons q
    · exact (ih (ptKey q :: seen)).cons₂ q

/-- C3: with `S ≥ 2` steps the sweep samples exactly `S` budgets, the
first is `min_budget` and the last `max_budget`, each sample is the
rounded point of the even spacing, the collected output is exactly the
first-occurrence deduplication (by `(cost, co2)` key, in solve order) of
the per-budget solve results, which is duplicate-free and a sublist of
those results; and the worked example samples [1000, 2000, 3000, 4000,
5000]. -/
theorem frontier_steps_spec (bo : List (List IntPoint)) (minB maxB : ℤ)
    (S : ℕ) (hS : 2 ≤ S) :
    (stepsBudgets minB maxB S).length = S ∧
    (stepsBudgets minB maxB S).getD 0 0 = minB ∧
    (stepsBudgets minB maxB S).getD (S - 1) 0 = maxB ∧
    (∀ i, i < S → (stepsBudgets minB maxB S).getD i 0 =
      roundHalfEven ((minB : ℚ) + (i : ℚ) * ((maxB : ℚ) - (minB : ℚ)) / ((S : ℚ) - 1))) ∧
    frontier_by_budget_steps bo minB maxB S false false =
      dedupFirstAux [] ((stepsBudgets minB maxB S).filterMap
        fun B => solve_max_co2_under_budget bo B false) ∧
    (frontier_by_budget_steps bo minB maxB S false false).Sublist
      ((stepsBudgets minB maxB S).filterMap
        fun B => solve_max_co2_under_budget bo B false) ∧
    (frontier_by_budget_steps bo minB maxB S false false).Pairwise
      (fun a b => ptKey a ≠ ptKey b) ∧
    stepsBudgets 1000 5000 5 = [1000, 2000, 3000, 4000, 5000] := by
  have h5 : frontier_by_budget_steps bo minB maxB S false false =
      dedupFirstAux [] ((stepsBudgets minB maxB S).filterMap
        fun B => solve_max_co2_under_budget bo B false) := by
    simp only [frontier_by_budget_steps, Bool.false_eq_true, if_false]
    rw [stepsLoop_eq_dedup bo false (stepsBudgets minB maxB S) [] []]
    simp
  refine ⟨?_, ?_, ?_, fun i hi => stepsBudgets_getD minB maxB S hS i hi, h5, ?_, ?_, ?_⟩
  · rw [stepsBudgets_eq minB maxB S hS]
    simp
  · rw [stepsBudgets_getD minB maxB S hS 0 (by omega)]
    simp [roundHalfEven_intCast]
  · rw [stepsBudgets_getD minB maxB S hS (S - 1) (by omega)]
    have h1 : 1 ≤ S := by omega
    have hcast : ((S - 1 : ℕ) : ℚ) = (S : ℚ) - 1 := by
      rw [Nat.cast_sub h1]
      norm_num
    rw [hcast]
    have hne : ((S : ℚ) - 1) ≠ 0 := by
      have h2 : (2 : ℚ) ≤ (S : ℚ) := by exact_mod_cast hS
      linarith
    rw [mul_div_cancel_left₀ _ hne]
    have h3 : (minB : ℚ) + ((maxB : ℚ) - (minB : ℚ)) = (maxB : ℚ) := by ring
    rw [h3, roundHalfEven_intCast]
  · rw [h5]
    exact dedupFirstAux_sublist _ []
  · rw [h5]
    exact dedupFirstAux_pairwise _ []
  · rw [stepsBudgets_eq 1000 5000 5 (by norm_num),
      show List.range 5 = [0, 1, 2, 3, 4] from rfl]
    simp only [List.map_cons, List.map_nil, List.cons.injEq, and_true]
    refine ⟨?_, ?_, ?_, ?_, ?_⟩ <;>
      exact roundHalfEven_eq_of_eq_intCast _ _ (by push_cast; norm_num)

/-- Witness for C3 at `S = 5` budgets between 1000 and 5000 on the
one-block instance. -/
theorem frontier_steps_witness :
    2 ≤ 5 ∧ (stepsBudgets 1000 5000 5).length = 5 ∧
    frontier_by_budget_steps oneBlockW 1000 5000 5 false false =
      dedupFirstAux [] ((stepsBudgets 1000 5000 5).filterMap
        fun B => solve_max_co2_under_budget oneBlockW B false) :=
  ⟨by decide, (frontier_steps_spec oneBlockW 1000 5000 5 (by decide)).1,
    (frontier_steps_spec oneBlockW 1000 5000 5 (by decide)).2.2.2.2.1⟩

lemma tightLoopF_fuel_irrel (bo : List (List IntPoint)) (rl : Bool) :
    ∀ (n : ℕ) (b : ℤ), b.toNat ≤ n →
      ∀ (f₁ f₂ : ℕ), b.toNat < f₁ → b.toNat < f₂ →
        ∀ (seen : List (ℤ × ℤ)) (res : List FrontierPoint),
          tightLoopF bo rl f₁ b seen res = tightLoopF bo rl f₂ b seen res := by
  intro n
  induction n using Nat.strong_induction_on with
  | _ n ih =>
    intro b hbn f₁ f₂ hf₁ hf₂ seen res
    obtain ⟨k₁, rfl⟩ : ∃ k, f₁ = k + 1 := ⟨f₁ - 1, by omega⟩
    obtain ⟨k₂, rfl⟩ : ∃ k, f₂ = k + 1 := ⟨f₂ - 1, by omega⟩
    by_cases hb : b < 0
    · simp only [tightLoopF, if_pos hb]
    cases hres : solve_max_co2_under_budget bo b rl with
    | none => simp only [tightLoopF, if_neg hb, hres]
    | some p =>
      obtain ⟨c, z, sel⟩ := p
      simp only [tightLoopF, if_neg hb, hres]
      have hb0 : 0 ≤ b := by omega
      by_cases hmem : (c, z) ∈ seen
      · rw [if_pos hmem, if_pos hmem]
        by_cases hstop : c - 1 < 0 ∨ b ≤ c - 1
        · rw [if_pos hstop, if_pos hstop]
        · rw [if_neg hstop, if_neg hstop]
          push_neg at hstop
          have hlt : (c - 1).toNat < b.toNat := by omega
          exact ih (n - 1) (by omega) (c - 1) (by omega) k₁ k₂ (by omega) (by omega)
            seen res
      · rw [if_neg hmem, if_neg hmem]
        by_cases hstop : c - 1 < 0 ∨ b ≤ c - 1
        · rw [if_pos hstop, if_pos hstop]
        · rw [if_neg hstop, if_neg hstop]
          push_neg at hstop
          have hlt : (c - 1).toNat < b.toNat := by omega
          exact ih (n - 1) (by omega) (c - 1) (by omega) k₁ k₂ (by omega) (by omega)
            ((c, z) :: seen) (res ++ [(c, z, sel)])

lemma tightCallsF_le (bo : List (List IntPoint)) (rl : Bool) :
    ∀ (f : ℕ) (b : ℤ), tightCallsF bo rl f b ≤ b.toNat + 1 := by
  intro f
  induction f with
  | zero =>
    intro b
    simp [tightCallsF]
  | succ k ih =>
    intro b
    by_cases hb : b < 0
    · simp only [tightCallsF, if_pos hb]
      omega
    cases hres : solve_max_co2_under_budget bo b rl with
    | none =>
      simp only [tightCallsF, if_neg hb, hres]
      omega
    | some p =>
      obtain ⟨c, z, sel⟩ := p
      simp only [tightCallsF, if_neg hb, hres]
      by_cases hstop : c - 1 < 0 ∨ b ≤ c - 1
      · rw [if_pos hstop]
        omega
      · rw [if_neg hstop]
        push_neg at hstop
        have h2 := ih (c - 1)
        omega

/-- C6: the tight sweep terminates.  The fuel-indexed loop is stable once
the fuel exceeds `max_budget.toNat` (each continuing iteration moves to
`achieved cost - 1`, which the loop guard keeps nonnegative and strictly
decreasing), the number of solver invocations never exceeds
`max_budget.toNat + 1` whatever the fuel, and `frontier_by_budget_tight`
is that stable value. -/
theorem tight_sweep_terminates (bo : List (List IntPoint)) (rl : Bool)
    (maxB : ℤ) (f : ℕ) (hf : maxB.toNat < f) :
    (∀ (seen : List (ℤ × ℤ)) (res : List FrontierPoint),
      tightLoopF bo rl f maxB seen res =
        tightLoopF bo rl (maxB.toNat + 1) maxB seen res) ∧
    tightCallsF bo rl f maxB ≤ maxB.toNat + 1 ∧
    frontier_by_budget_tight bo maxB rl false = tightLoopF bo rl f maxB [] [] := by
  refine ⟨?_, tightCallsF_le bo rl f maxB, ?_⟩
  · intro seen res
    exact tightLoopF_fuel_irrel bo rl maxB.toNat maxB (le_refl _) f (maxB.toNat + 1)
      hf (by omega) seen res
  · simp only [frontier_by_budget_tight, Bool.false_eq_true, if_false]
    exact tightLoopF_fuel_irrel bo rl maxB.toNat maxB (le_refl _) (maxB.toNat + 1) f
      (by omega) hf [] []

/-- Witness for C6 on the one-block instance with starting budget 20 and
fuel 22. -/
theorem tight_sweep_witness :
    (20 : ℤ).toNat < 22 ∧
    ((∀ (seen : List (ℤ × ℤ)) (res : List FrontierPoint),
      tightLoopF oneBlockW false 22 20 seen res =
        tightLoopF oneBlockW false ((20 : ℤ).toNat + 1) 20 seen res) ∧
    tightCallsF oneBlockW false 22 20 ≤ (20 : ℤ).toNat + 1 ∧
    frontier_by_budget_tight oneBlockW 20 false false =
      tightLoopF oneBlockW false 22 20 [] []) :=
  ⟨by decide, tight_sweep_terminates oneBlockW false 20 22 (by decide)⟩

lemma normalize_pct_nonneg (x : ℚ) (hx : 0 ≤ x) : 0 ≤ normalize_pct x := by
  unfold normalize_pct
  split
  · positivity
  · exact hx

/-- C9 counterexample: a ground catalog row whose numeric value is `-0.5`
passes the `≤ 1` ceilings untouched, so the returned option has
`res_pct = -0.5 ∉ [0, 1]`. -/
theorem ground_options_counterexample :
    load_ground_options [⟨"m1", "ground", -(1/2), 0, ""⟩] 1 1 =
      Except.ok [⟨"m1", -(1/2), 0, ""⟩] ∧
    (⟨"m1", -(1/2), 0, ""⟩ : GroundOption).res_pct < 0 := by
  constructor
  · norm_num [load_ground_options, List.filterMap_cons, List.filterMap_nil, normalize_pct,
      show pyLower (pyStrip "ground") = "ground" from by decide,
      show pyStrip "m1" = "m1" from by decide,
      show pyStrip "" = "" from by decide]
  · show (-(1/2) : ℚ) < 0
    norm_num

/-- C9 (amended): with both ceilings at 1, every returned option has
`res_pct ≤ 1` and `nbs_pct ≤ 1`; the full interval `[0, 1]` additionally
needs the catalog values to be nonnegative, since negative values pass
through `_normalize_pct` and the ceilings unchanged. -/
theorem ground_options_amended (rows : List OptionRow) (out : List GroundOption)
    (g : GroundOption) (hok : load_ground_options rows 1 1 = Except.ok out)
    (hg : g ∈ out) :
    g.res_pct ≤ 1 ∧ g.nbs_pct ≤ 1 ∧
    ((∀ r ∈ rows, 0 ≤ r.res_pct ∧ 0 ≤ r.nbs_pct) →
      0 ≤ g.res_pct ∧ 0 ≤ g.nbs_pct) := by
  simp only [load_ground_options] at hok
  split at hok
  · cases hok
  · have hout := Except.ok.inj hok
    subst hout
    obtain ⟨r, hr, hfr⟩ := List.mem_filterMap.mp hg
    split at hfr
    · split at hfr
      · next hcond =>
        have hgeq := Option.some.inj hfr
        subst hgeq
        refine ⟨hcond.1, hcond.2, ?_⟩
        intro hall
        obtain ⟨hxr, hxn⟩ := hall r hr
        exact ⟨normalize_pct_nonneg r.res_pct hxr, normalize_pct_nonneg r.nbs_pct hxn⟩
      · cases hfr
    · cases hfr

/-- Witness for C9 on a well-formed catalog row with percentages 1/2 and
1/4. -/
theorem ground_options_witness :
    (⟨"m1", 1/2, 1/4, ""⟩ : GroundOption).res_pct ≤ 1 ∧
    (⟨"m1", 1/2, 1/4, ""⟩ : GroundOption).nbs_pct ≤ 1 ∧
    ((∀ r ∈ [(⟨"m1", "ground", 1/2, 1/4, ""⟩ : OptionRow)],
        0 ≤ r.res_pct ∧ 0 ≤ r.nbs_pct) →
      0 ≤ (⟨"m1", 1/2, 1/4, ""⟩ : GroundOption).res_pct ∧
      0 ≤ (⟨"m1", 1/2, 1/4, ""⟩ : GroundOption).nbs_pct) :=
  ground_options_amended [⟨"m1", "ground", 1/2, 1/4, ""⟩] [⟨"m1", 1/2, 1/4, ""⟩]
    ⟨"m1", 1/2, 1/4, ""⟩
    (by
      norm_num [load_ground_options, List.filterMap_cons, List.filterMap_nil, normalize_pct,
        show pyLower (pyStrip "ground") = "ground" from by decide,
        show pyStrip "m1" = "m1" from by decide,
        show pyStrip "" = "" from by decide])
    (List.mem_singleton.mpr rfl)
